import Mathlib

/-!
# Verification of the NLP notebooks repository

Shallow embedding of the Python code of the notebooks
`simple-search-engine-with-bm25.ipynb`,
`article-ranking-with-an-nli-model.ipynb` and
`simple-semantic-search-engine-with-transformers.ipynb`,
together with proofs of the claims about them.

External libraries (rank-bm25, numpy, NLTK, transformers pipelines,
feedparser, requests, BeautifulSoup) are modelled as parameters: the
embedding covers the repository's own logic, which consumes their
outputs.  Python floats are modelled as rationals `ℚ` (only ordering
and equality of scores matter to the claims), Python strings either as
Lean `String` or as `List Char` where character-level reasoning is
needed, and Python's stable `list.sort` / `sorted` with `reverse=True`
as `List.mergeSort` with the reversed comparison, which has the same
stable semantics.
-/

namespace Notebooks

/-! ## Generic helper lemmas -/

/-- Picking the elements at two positions `i < j` of a list, in order,
yields a two-element sublist. -/
theorem pair_get_sublist (l : List α) (i j : ℕ) (hi : i < l.length)
    (hj : j < l.length) (hij : i < j) :
    List.Sublist [l.get ⟨i, hi⟩, l.get ⟨j, hj⟩] l := by
  have hdrop : l.get ⟨i, hi⟩ :: l.drop (i + 1) = l.drop i :=
    List.getElem_cons_drop l i hi
  have hmem : l.get ⟨j, hj⟩ ∈ l.drop (i + 1) := by
    have hj' : j - (i + 1) < (l.drop (i + 1)).length := by
      simp only [List.length_drop]
      omega
    have : (l.drop (i + 1)).get ⟨j - (i + 1), hj'⟩ = l.get ⟨j, hj⟩ := by
      simp only [List.get_eq_getElem, List.getElem_drop]
      congr 1
      omega
    rw [← this]
    exact List.get_mem _ _ _
  have h1 : List.Sublist [l.get ⟨i, hi⟩, l.get ⟨j, hj⟩]
      (l.get ⟨i, hi⟩ :: l.drop (i + 1)) :=
    List.cons_sublist_cons.mpr (List.singleton_sublist.mpr hmem)
  have h2 : List.Sublist (l.drop i) l := List.drop_sublist i l
  rw [← hdrop] at h2
  exact h1.trans h2

/-! ## BM25 notebook: `get_bm25_scores`

Python source:
```
def get_bm25_scores(tokenized_docs, query):
    bm25 = BM25Okapi(tokenized_docs)
    scores = bm25.get_scores(query)
    scores = [(i, v) for i, v in enumerate(scores)]
    scores.sort(key=lambda x: x[1], reverse=True)
    return scores
```
`bm25.get_scores(query)` is the external rank-bm25 library; the
function is embedded parametrically in the score list it returns.
`enumerate` is `List.enum`; Python's stable in-place sort with
`key=itemgetter-like` and `reverse=True` is the stable merge sort by
the reversed comparison on the second component. -/

def bm25le (a b : ℕ × ℚ) : Bool := decide (b.2 ≤ a.2)

def get_bm25_scores (scores : List ℚ) : List (ℕ × ℚ) :=
  (scores.enum).mergeSort bm25le

theorem bm25le_trans (a b c : ℕ × ℚ) (h1 : bm25le a b) (h2 : bm25le b c) :
    bm25le a c := by
  simp only [bm25le, decide_eq_true_eq] at *
  exact le_trans h2 h1

theorem bm25le_total (a b : ℕ × ℚ) : bm25le a b || bm25le b a := by
  simp only [bm25le, Bool.or_eq_true, decide_eq_true_eq]
  exact le_total b.2 a.2

/-- C1: `get_bm25_scores(tokenized_docs, query)` returns a list of
(index, score) pairs that is a permutation of the pairs `(i, s_i)` for
`i = 0 .. len(tokenized_docs)-1`, where `s_i` is the score the BM25
library assigns to document `i`, and the returned list is sorted in
non-increasing order of score. -/
theorem get_bm25_scores_spec (scores : List ℚ) :
    (get_bm25_scores scores).Perm scores.enum ∧
    (get_bm25_scores scores).Pairwise (fun a b => b.2 ≤ a.2) := by
  constructor
  · exact List.mergeSort_perm scores.enum bm25le
  · have h := List.sorted_mergeSort bm25le_trans bm25le_total scores.enum
    exact h.imp (fun hab => by simpa [bm25le] using hab)

/-- C10: if two documents `i < j` receive equal BM25 scores, then the
pair for `i` precedes the pair for `j` in the list returned by
`get_bm25_scores`: the sort is stable, so ties are broken by ascending
document index.  Preceding is expressed as the two pairs forming a
sublist of the output in that order. -/
theorem get_bm25_scores_stable (scores : List ℚ) (i j : ℕ)
    (hi : i < scores.length) (hj : j < scores.length) (hij : i < j)
    (heq : scores.get ⟨i, hi⟩ = scores.get ⟨j, hj⟩) :
    List.Sublist [(i, scores.get ⟨i, hi⟩), (j, scores.get ⟨j, hj⟩)]
      (get_bm25_scores scores) := by
  have hie : i < scores.enum.length := by simpa using hi
  have hje : j < scores.enum.length := by simpa using hj
  have hgi : scores.enum.get ⟨i, hie⟩ = (i, scores.get ⟨i, hi⟩) := by
    simp [List.getElem_enum]
  have hgj : scores.enum.get ⟨j, hje⟩ = (j, scores.get ⟨j, hj⟩) := by
    simp [List.getElem_enum]
  have hsub : List.Sublist [(i, scores.get ⟨i, hi⟩), (j, scores.get ⟨j, hj⟩)]
      scores.enum := by
    have := pair_get_sublist scores.enum i j hie hje hij
    rwa [hgi, hgj] at this
  have hle : bm25le (i, scores.get ⟨i, hi⟩) (j, scores.get ⟨j, hj⟩) := by
    simp only [bm25le, decide_eq_true_eq]
    exact le_of_eq heq.symm
  exact List.pair_sublist_mergeSort bm25le_trans bm25le_total hle hsub

/-- Witness for C10 at a concrete input: in `get_bm25_scores [1, 2, 1]`
documents 0 and 2 tie with score 1 and the pair for document 0 comes
first. -/
theorem get_bm25_scores_stable_witness :
    List.Sublist [((0 : ℕ), (1 : ℚ)), (2, 1)] (get_bm25_scores [1, 2, 1]) := by
  have h := get_bm25_scores_stable [1, 2, 1] 0 2 (by decide) (by decide)
    (by decide) rfl
  simpa using h

/-! ## HTML text extraction: `tag_visible` and `text_from_html`

Python source (identical in the article-ranking and the semantic-search
notebooks):
```
def tag_visible(element):
    if element.parent.name in ['p']:
        return True
    if isinstance(element, Comment):
        return False
    return False

def text_from_html(html):
    soup = BeautifulSoup(html.content, 'lxml')
    texts = soup.findAll(text=True)
    visible_texts = filter(tag_visible, texts)
    return u" ".join(t.strip() for t in visible_texts)
```
An element produced by `soup.findAll(text=True)` is modelled by the
name of its parent tag, whether it is an HTML comment node, and its
text; the BeautifulSoup parse itself is external, so `text_from_html`
is embedded as a function of the list of text elements the parse
yields.  Python `str.strip()` is `String.trim` and `" ".join` is
`String.intercalate " "`. -/

structure HtmlText where
  parentName : String
  isComment : Bool
  text : String

def tag_visible (element : HtmlText) : Bool :=
  if element.parentName ∈ ["p"] then true
  else if element.isComment then false
  else false

def text_from_html (texts : List HtmlText) : String :=
  String.intercalate " " ((texts.filter tag_visible).map (fun t => t.text.trim))

/-- C9: `tag_visible(element)` returns `True` if and only if the
element's parent tag is `'p'`; the `isinstance(element, Comment)`
branch never affects the result (both of its outcomes return `False`,
and a comment under a `<p>` parent already returned `True`); hence
`text_from_html` keeps exactly the text nodes, HTML comments included,
whose direct parent is a `<p>` element. -/
theorem tag_visible_spec :
    (∀ element : HtmlText, tag_visible element = decide (element.parentName = "p")) ∧
    (∀ (parentName text : String) (c₁ c₂ : Bool),
        tag_visible ⟨parentName, c₁, text⟩ = tag_visible ⟨parentName, c₂, text⟩) ∧
    (∀ texts : List HtmlText,
        text_from_html texts =
          String.intercalate " "
            ((texts.filter (fun t => decide (t.parentName = "p"))).map
              (fun t => t.text.trim))) := by
  have hvis : ∀ element : HtmlText,
      tag_visible element = decide (element.parentName = "p") := by
    intro e
    unfold tag_visible
    by_cases h : e.parentName ∈ ["p"]
    · simp only [List.mem_singleton] at h
      simp [h]
    · simp only [List.mem_singleton] at h
      cases hc : e.isComment <;> simp [h, hc]
  refine ⟨hvis, ?_, ?_⟩
  · intro p txt c₁ c₂
    rw [hvis ⟨p, c₁, txt⟩, hvis ⟨p, c₂, txt⟩]
  · intro texts
    unfold text_from_html
    congr 1
    congr 1
    exact List.filter_congr (fun x _ => hvis x)

/-! ## Article-ranking notebook: `classifier` and `summarise` truncation

Python source:
```
def classifier(source_text, search_term):
    src_text = source_text[:1024]
    classification = pipeline("zero-shot-classification", device=0)
    results = classification(src_text, search_term)
    return results

def summarise(source_text):
    src_text = source_text[:1024]
    summarization = pipeline("summarization")
    summary_text = summarization(src_text, min_length = 100)[0]['summary_text']
    summary_text = re.sub(r'...', r'...', summary_text)
    return summary_text
```
The transformers pipelines are external; what the repository's own code
determines is the text handed to them, namely `source_text[:1024]`.
Python strings are modelled as `List Char`, slicing as `List.take`. -/

def classifier_input (source_text : List Char) : List Char :=
  source_text.take 1024

def summarise_input (source_text : List Char) : List Char :=
  source_text.take 1024

/-- C5: both `classifier(source_text, search_term)` and
`summarise(source_text)` pass only the first 1024 characters of
`source_text` to the external pipeline: the handed text is an initial
segment of the source of length at most 1024, and any two source texts
that agree on their first 1024 characters produce identical pipeline
inputs, so characters past position 1024 have no effect. -/
theorem truncation_spec (s t : List Char) (h : s.take 1024 = t.take 1024) :
    classifier_input s = classifier_input t ∧
    summarise_input s = summarise_input t ∧
    (classifier_input s).length ≤ 1024 ∧
    (summarise_input s).length ≤ 1024 ∧
    classifier_input s <+: s ∧
    summarise_input s <+: s := by
  refine ⟨h, h, ?_, ?_, ?_, ?_⟩
  · exact List.length_take_le 1024 s
  · exact List.length_take_le 1024 s
  · exact List.take_prefix 1024 s
  · exact List.take_prefix 1024 s

/-- Witness for C5: two concrete texts that differ only at position
1024 (the 1025th character) yield identical pipeline inputs. -/
theorem truncation_spec_witness :
    classifier_input (List.replicate 1025 'a') =
      classifier_input (List.replicate 1024 'a' ++ ['b']) ∧
    summarise_input (List.replicate 1025 'a') =
      summarise_input (List.replicate 1024 'a' ++ ['b']) := by
  have h : (List.replicate 1025 'a').take 1024 =
      (List.replicate 1024 'a' ++ ['b']).take 1024 := by
    rw [List.take_replicate]
    rw [List.take_append_of_le_length (by rw [List.length_replicate])]
    rw [List.take_replicate]
    norm_num
  have hmain := truncation_spec (List.replicate 1025 'a')
    (List.replicate 1024 'a' ++ ['b']) h
  exact ⟨hmain.1, hmain.2.1⟩

/-! ## Article-ranking notebook: the articles loop

Python source:
```
newsfeed = feedparser.parse(feed)
articles = []
entries = [entry for entry in newsfeed.entries
           if time.time() - time.mktime(entry.published_parsed) < (86400*days)]
for entry in tqdm(entries, total=len(entries)):
    html = requests.get(entry.link)
    src_text = text_from_html(html)
    classification = classifier(src_text, search_term)
    article = dict()
    article["title"] = entry.title
    article["link"] = entry.link
    article["src_text"] = src_text
    article["published"] = entry.published_parsed
    article["relevancy"] = classification["scores"][0]
    articles.append(article)
```
A feed entry is modelled by its title, link and the `time.mktime`
value of its `published_parsed` field (a float, here `ℚ`); `time.time()`
is the parameter `now`.  The external composition
`text_from_html(requests.get(link))` is the parameter `fetchText`, and
`classifier(src_text, search_term)["scores"][0]` — the zero-shot
pipeline — is the parameter `classifyScore`.  The article dict built by
the loop body has exactly the five keys `title`, `link`, `src_text`,
`published`, `relevancy`, mirrored by the `Article` structure.  The
loop itself is embedded as `articlesLoop`, whose per-entry step may
fail (`Except`): an exception from a library call propagates uncaught,
terminating the loop and leaving the accumulated `articles` list as it
was — there is no handler in the notebook (no `try`/`except` appears in
any notebook), no retry and no rollback. -/

structure Entry where
  title : String
  link : String
  published_parsed : ℚ
deriving DecidableEq

structure Article where
  title : String
  link : String
  src_text : String
  published : ℚ
  relevancy : ℚ
deriving DecidableEq

def mkArticle (fetchText : String → String) (classifyScore : String → String → ℚ)
    (search_term : String) (entry : Entry) : Article :=
  let src_text := fetchText entry.link
  { title := entry.title
    link := entry.link
    src_text := src_text
    published := entry.published_parsed
    relevancy := classifyScore src_text search_term }

def recentEntries (now days : ℚ) (entries : List Entry) : List Entry :=
  entries.filter (fun entry => decide (now - entry.published_parsed < 86400 * days))

def articlesLoop {ε : Type} (process : Entry → Except ε Article) :
    List Entry → List Article → List Article × Option ε
  | [], acc => (acc, none)
  | entry :: rest, acc =>
    match process entry with
    | Except.ok a => articlesLoop process rest (acc ++ [a])
    | Except.error e => (acc, some e)

def articlesOf (fetchText : String → String) (classifyScore : String → String → ℚ)
    (search_term : String) (now days : ℚ) (entries : List Entry) : List Article :=
  (@articlesLoop Unit
    (fun entry => Except.ok (mkArticle fetchText classifyScore search_term entry))
    (recentEntries now days entries) []).1

theorem articlesLoop_pure {ε : Type} (f : Entry → Article) (l : List Entry) :
    ∀ acc : List Article,
      articlesLoop (fun entry => (Except.ok (f entry) : Except ε Article)) l acc
        = (acc ++ l.map f, none) := by
  induction l with
  | nil => intro acc; simp [articlesLoop]
  | cons e rest ih =>
    intro acc
    simp only [articlesLoop, List.map_cons]
    rw [ih (acc ++ [f e])]
    simp

theorem articlesLoop_failure_aux {ε : Type} (process : Entry → Except ε Article)
    (err : ε) (l : List Entry) :
    ∀ (k : ℕ) (acc : List Article) (g : ℕ → Article) (hk : k < l.length),
      (∀ m, m < k → ∃ hml : m < l.length, process (l.get ⟨m, hml⟩) = Except.ok (g m)) →
      process (l.get ⟨k, hk⟩) = Except.error err →
      articlesLoop process l acc = (acc ++ (List.range k).map g, some err) := by
  induction l with
  | nil => intro k acc g hk; simp at hk
  | cons e rest ih =>
    intro k acc g hk hok herr
    cases k with
    | zero =>
      simp only [List.get] at herr
      simp [articlesLoop, herr]
    | succ k =>
      have h0 : process e = Except.ok (g 0) := by
        obtain ⟨hml, h⟩ := hok 0 (Nat.succ_pos k)
        simpa using h
      simp only [articlesLoop, h0]
      have hk2 : k < rest.length := Nat.lt_of_succ_lt_succ hk
      have herr2 : process (rest.get ⟨k, hk2⟩) = Except.error err := by
        simpa using herr
      have hok2 : ∀ m, m < k → ∃ hml : m < rest.length,
          process (rest.get ⟨m, hml⟩) = Except.ok (g (m + 1)) := by
        intro m hm
        obtain ⟨hml, h⟩ := hok (m + 1) (Nat.succ_lt_succ hm)
        exact ⟨Nat.lt_of_succ_lt_succ hml, by simpa using h⟩
      rw [ih k (acc ++ [g 0]) (fun m => g (m + 1)) hk2 hok2 herr2]
      rw [List.append_assoc]
      congr 1
      rw [List.range_succ_eq_map]
      simp [Function.comp_def]

/-- C6: the notebook installs no exception handler, so a failure
raised while processing a feed entry propagates uncaught out of the
loop.  Formally, running the article loop with a per-entry step that
succeeds on the first `k` entries and fails on entry `k` terminates
with that error, leaving exactly the records of the first `k` entries
appended to `articles` — no retry (each entry is consumed once, in
order) and no rollback of the partially built list. -/
theorem articles_loop_failure {ε : Type} (process : Entry → Except ε Article)
    (entries : List Entry) (k : ℕ) (g : ℕ → Article) (err : ε)
    (hk : k < entries.length)
    (hok : ∀ m, m < k → ∃ hml : m < entries.length,
        process (entries.get ⟨m, hml⟩) = Except.ok (g m))
    (herr : process (entries.get ⟨k, hk⟩) = Except.error err) :
    articlesLoop process entries [] = ((List.range k).map g, some err) := by
  have h := articlesLoop_failure_aux process err entries k [] g hk hok herr
  simpa using h

def demoFetch : String → String := fun _ => "text"

def demoScore : String → String → ℚ := fun _ _ => 1

def demoArticle (entry : Entry) : Article :=
  mkArticle demoFetch demoScore "machine learning" entry

def demoProcess (entry : Entry) : Except String Article :=
  if entry.title = "bad" then Except.error "boom" else Except.ok (demoArticle entry)

/-- Witness for C6 at a concrete input: processing fails on the second
entry; the loop stops with that error and retains exactly the record of
the first entry. -/
theorem articles_loop_failure_witness :
    articlesLoop demoProcess
        [⟨"fine", "l1", 0⟩, ⟨"bad", "l2", 0⟩, ⟨"later", "l3", 0⟩] []
      = ([demoArticle ⟨"fine", "l1", 0⟩], some "boom") := by
  have hok : ∀ m, m < 1 →
      ∃ hml : m < ([⟨"fine", "l1", 0⟩, ⟨"bad", "l2", 0⟩,
          ⟨"later", "l3", 0⟩] : List Entry).length,
        demoProcess (([⟨"fine", "l1", 0⟩, ⟨"bad", "l2", 0⟩,
            ⟨"later", "l3", 0⟩] : List Entry).get ⟨m, hml⟩)
          = Except.ok ((fun _ => demoArticle ⟨"fine", "l1", 0⟩) m) := by
    intro m hm
    have hm0 : m = 0 := by omega
    subst hm0
    exact ⟨by decide, rfl⟩
  have h := articles_loop_failure demoProcess
    [⟨"fine", "l1", 0⟩, ⟨"bad", "l2", 0⟩, ⟨"later", "l3", 0⟩]
    1 (fun _ => demoArticle ⟨"fine", "l1", 0⟩) "boom" (by decide) hok rfl
  simpa using h

/-- C7: after the loop completes, `articles` holds exactly one record
per feed entry that passed the date filter, in feed order: record `j`
is built from filtered entry `j` (so distinct records originate from
distinct entries), each record carries exactly the five fields of
`Article` (by construction through `mkArticle`), and every record's
relevancy is the rational score the classifier assigned to its own
source text.  The last conjunct characterises the date filter. -/
theorem articles_spec (fetchText : String → String)
    (classifyScore : String → String → ℚ) (search_term : String)
    (now days : ℚ) (entries : List Entry) :
    (articlesOf fetchText classifyScore search_term now days entries).length
        = (recentEntries now days entries).length ∧
    (∀ j (hj1 : j < (articlesOf fetchText classifyScore search_term now days entries).length)
        (hj2 : j < (recentEntries now days entries).length),
        (articlesOf fetchText classifyScore search_term now days entries).get ⟨j, hj1⟩
          = mkArticle fetchText classifyScore search_term
              ((recentEntries now days entries).get ⟨j, hj2⟩)) ∧
    (∀ a ∈ articlesOf fetchText classifyScore search_term now days entries,
        a.relevancy = classifyScore a.src_text search_term) ∧
    (∀ entry : Entry, entry ∈ recentEntries now days entries ↔
        entry ∈ entries ∧ now - entry.published_parsed < 86400 * days) := by
  have hmap : articlesOf fetchText classifyScore search_term now days entries
      = (recentEntries now days entries).map
          (mkArticle fetchText classifyScore search_term) := by
    unfold articlesOf
    rw [articlesLoop_pure]
    simp
  refine ⟨?_, ?_, ?_, ?_⟩
  · rw [hmap, List.length_map]
  · intro j hj1 hj2
    simp only [List.get_eq_getElem]
    simp only [hmap, List.getElem_map]
  · intro a ha
    rw [hmap] at ha
    obtain ⟨e, _, rfl⟩ := List.mem_map.mp ha
    simp [mkArticle]
  · intro entry
    unfold recentEntries
    rw [List.mem_filter]
    simp

/-! ## Article-ranking notebook: sorting and display

Python source:
```
sorted_articles = sorted(articles, key=itemgetter("relevancy"), reverse=True)
...
for article in sorted_articles[:number_of_articles]:
    summary = summarise(article["src_text"])
    printmd("**{}**<br>{}<br>{}<br>...".format(article["title"], article["link"],
            summary, search_term, 100*article["relevancy"]))
```
`sorted` with a key and `reverse=True` is a stable descending sort on
the key; the printing loop walks the slice
`sorted_articles[:number_of_articles]`, i.e. the first
`number_of_articles` records (all of them when fewer exist). -/

def articleDescLe (a b : Article) : Bool := decide (b.relevancy ≤ a.relevancy)

def sorted_articles (articles : List Article) : List Article :=
  articles.mergeSort articleDescLe

def displayed_articles (number_of_articles : ℕ) (articles : List Article) :
    List Article :=
  (sorted_articles articles).take number_of_articles

theorem articleDescLe_trans (a b c : Article) (h1 : articleDescLe a b)
    (h2 : articleDescLe b c) : articleDescLe a c := by
  simp only [articleDescLe, decide_eq_true_eq] at *
  exact le_trans h2 h1

theorem articleDescLe_total (a b : Article) :
    articleDescLe a b || articleDescLe b a := by
  simp only [articleDescLe, Bool.or_eq_true, decide_eq_true_eq]
  exact le_total b.relevancy a.relevancy

/-- C2: `sorted_articles` is a permutation of the `articles` list
ordered by non-increasing `relevancy`, and the printing loop displays
exactly the first `number_of_articles` records of that order: the
displayed list is an initial segment of `sorted_articles` of length
`min number_of_articles (len articles)`, and it is all of
`sorted_articles` when the list is no longer than
`number_of_articles`. -/
theorem sorted_articles_spec (number_of_articles : ℕ) (articles : List Article) :
    (sorted_articles articles).Perm articles ∧
    (sorted_articles articles).Pairwise (fun a b => b.relevancy ≤ a.relevancy) ∧
    displayed_articles number_of_articles articles <+: sorted_articles articles ∧
    (displayed_articles number_of_articles articles).length
        = min number_of_articles articles.length ∧
    (articles.length ≤ number_of_articles →
        displayed_articles number_of_articles articles = sorted_articles articles) := by
  refine ⟨List.mergeSort_perm articles articleDescLe, ?_, ?_, ?_, ?_⟩
  · have h := List.sorted_mergeSort articleDescLe_trans articleDescLe_total articles
    exact h.imp (fun hab => by simpa [articleDescLe] using hab)
  · exact List.take_prefix number_of_articles (sorted_articles articles)
  · unfold displayed_articles
    rw [List.length_take]
    unfold sorted_articles
    rw [List.length_mergeSort]
  · intro hle
    unfold displayed_articles
    apply List.take_of_length_le
    unfold sorted_articles
    rw [List.length_mergeSort]
    exact hle

/-- Witness for C2 at a concrete input: with two articles and
`number_of_articles = 4` every record is displayed, in sorted order. -/
theorem sorted_articles_spec_witness :
    displayed_articles 4 [⟨"t1", "l1", "s1", 0, 1⟩, ⟨"t2", "l2", "s2", 0, 2⟩]
      = sorted_articles [⟨"t1", "l1", "s1", 0, 1⟩, ⟨"t2", "l2", "s2", 0, 2⟩] :=
  (sorted_articles_spec 4
    [⟨"t1", "l1", "s1", 0, 1⟩, ⟨"t2", "l2", "s2", 0, 2⟩]).2.2.2.2 (by decide)

/-! ## BM25 notebook: the selection step

Python source:
```
idx = np.array(scores)[:num_results, 0].astype(int)
final_scores = np.array(scores)[:num_results, 1]
documents = [feed.entries[i] for i in idx]
```
`scores` here is the (index, score) list returned by
`get_bm25_scores`; the numpy slicing takes the first `num_results`
pairs and projects the two columns (`astype(int)` restores the integer
indices exactly, since they are small).  Python list indexing
`feed.entries[i]` is total only for in-range `i`; it is embedded with
an explicit default that the correctness theorem shows is never used
under the stated preconditions.  Feed entries are kept abstract (`α`):
the claim only moves them around. -/

def bm25_idx (scores : List ℚ) (num_results : ℕ) : List ℕ :=
  ((get_bm25_scores scores).take num_results).map Prod.fst

def bm25_final_scores (scores : List ℚ) (num_results : ℕ) : List ℚ :=
  ((get_bm25_scores scores).take num_results).map Prod.snd

def bm25_documents {α : Type} (dflt : α) (scores : List ℚ) (num_results : ℕ)
    (entries : List α) : List α :=
  (bm25_idx scores num_results).map (fun i => entries.getD i dflt)

theorem get_bm25_scores_length (scores : List ℚ) :
    (get_bm25_scores scores).length = scores.length := by
  unfold get_bm25_scores
  rw [List.length_mergeSort, List.enum_length]

theorem get_bm25_scores_fst_lt (scores : List ℚ) (p : ℕ × ℚ)
    (hp : p ∈ get_bm25_scores scores) : p.1 < scores.length := by
  have hmem : p ∈ scores.enum := by
    have hperm := List.mergeSort_perm scores.enum bm25le
    exact hperm.mem_iff.mp hp
  exact List.fst_lt_of_mem_enum hmem

/-- C3: under the preconditions that the BM25 library returned one
score per feed entry and that `num_results` does not exceed the number
of entries, the selection step yields `documents[j] = feed.entries[i_j]`
and `final_scores[j] = s_j`, where `(i_j, s_j)` is the `j`-th pair of
the descending-sorted list returned by `get_bm25_scores`; the printed
documents thus carry their own scores, in non-increasing score order,
and every unselected pair scores no higher than any selected one. -/
theorem bm25_selection_spec {α : Type} (dflt : α) (scores : List ℚ)
    (num_results : ℕ) (entries : List α)
    (hlen : scores.length = entries.length)
    (hn : num_results ≤ entries.length) :
    (bm25_documents dflt scores num_results entries).length = num_results ∧
    (bm25_final_scores scores num_results).length = num_results ∧
    (∀ j (hjp : j < (get_bm25_scores scores).length)
        (hji : ((get_bm25_scores scores).get ⟨j, hjp⟩).1 < entries.length)
        (hjd : j < (bm25_documents dflt scores num_results entries).length)
        (hjs : j < (bm25_final_scores scores num_results).length),
        (bm25_documents dflt scores num_results entries).get ⟨j, hjd⟩
            = entries.get ⟨((get_bm25_scores scores).get ⟨j, hjp⟩).1, hji⟩ ∧
        (bm25_final_scores scores num_results).get ⟨j, hjs⟩
            = ((get_bm25_scores scores).get ⟨j, hjp⟩).2) ∧
    (bm25_final_scores scores num_results).Pairwise (fun a b => b ≤ a) ∧
    (∀ s ∈ bm25_final_scores scores num_results,
        ∀ p ∈ (get_bm25_scores scores).drop num_results, p.2 ≤ s) := by
  have hslen : (get_bm25_scores scores).length = scores.length :=
    get_bm25_scores_length scores
  have hsorted : (get_bm25_scores scores).Pairwise (fun a b => b.2 ≤ a.2) :=
    (get_bm25_scores_spec scores).2
  refine ⟨?_, ?_, ?_, ?_, ?_⟩
  · unfold bm25_documents bm25_idx
    rw [List.length_map, List.length_map, List.length_take, hslen, hlen]
    omega
  · unfold bm25_final_scores
    rw [List.length_map, List.length_take, hslen, hlen]
    omega
  · intro j hjp hji hjd hjs
    have hjn : j < num_results := by
      have := hjs
      unfold bm25_final_scores at this
      rw [List.length_map, List.length_take] at this
      omega
    constructor
    · unfold bm25_documents bm25_idx
      simp only [List.get_eq_getElem, List.getElem_map, List.getElem_take]
      rw [List.getD_eq_getElem entries dflt (by simpa using hji)]
    · unfold bm25_final_scores
      simp only [List.get_eq_getElem, List.getElem_map, List.getElem_take]
  · unfold bm25_final_scores
    rw [List.pairwise_map]
    exact (hsorted.sublist (List.take_sublist num_results _))
  · intro s hs p hp
    unfold bm25_final_scores at hs
    obtain ⟨q, hq, rfl⟩ := List.mem_map.mp hs
    have hsplit : get_bm25_scores scores
        = (get_bm25_scores scores).take num_results
            ++ (get_bm25_scores scores).drop num_results :=
      (List.take_append_drop num_results _).symm
    have hpair := hsorted
    rw [hsplit] at hpair
    exact (List.pairwise_append.mp hpair).2.2 q hq p hp

/-- Witness for C3 at a concrete input: three scores, three entries,
top two selected. -/
theorem bm25_selection_spec_witness :
    (bm25_documents "z" [2, 1, 3] 2 ["a", "b", "c"]).length = 2 ∧
    (bm25_final_scores [2, 1, 3] 2).length = 2 ∧
    (∀ j (hjp : j < (get_bm25_scores [2, 1, 3]).length)
        (hji : ((get_bm25_scores [2, 1, 3]).get ⟨j, hjp⟩).1
            < (["a", "b", "c"] : List String).length)
        (hjd : j < (bm25_documents "z" [2, 1, 3] 2 ["a", "b", "c"]).length)
        (hjs : j < (bm25_final_scores [2, 1, 3] 2).length),
        (bm25_documents "z" [2, 1, 3] 2 ["a", "b", "c"]).get ⟨j, hjd⟩
            = (["a", "b", "c"] : List String).get
                ⟨((get_bm25_scores [2, 1, 3]).get ⟨j, hjp⟩).1, hji⟩ ∧
        (bm25_final_scores [2, 1, 3] 2).get ⟨j, hjs⟩
            = ((get_bm25_scores [2, 1, 3]).get ⟨j, hjp⟩).2) ∧
    (bm25_final_scores [2, 1, 3] 2).Pairwise (fun a b => b ≤ a) ∧
    (∀ s ∈ bm25_final_scores [2, 1, 3] 2,
        ∀ p ∈ (get_bm25_scores [2, 1, 3]).drop 2, p.2 ≤ s) :=
  bm25_selection_spec "z" [2, 1, 3] 2 ["a", "b", "c"] rfl (by decide)

/-! ## Semantic-search notebook: ranking by cosine similarity

Python source:
```
results = cosine_similarity(encoded_query, encoded_text)[0]
num_results = results.argsort()[-num_results:][::-1]
scores = results[num_results]
sentences = [input_text[idx] for idx in num_results]
...
for sentence, score in zip(sentences, scores):
    printmd(f'* {sentence} (score: {score:<.4f})')
```
`results` — the cosine similarity of each sentence of `input_text` to
the encoded search term — comes from the external model and
scikit-learn, so it is a parameter (one rational per sentence).
`argsort` returns indices sorting the array ascending; it is embedded
as a stable merge sort of `range n` by value (numpy fixes no tie order,
and no proved property depends on the tie order).  The slice `a[-k:]`
keeps the last `k` elements — all of them when `k = 0` or when `k`
exceeds the length — and `[::-1]` reverses.  numpy fancy indexing
`results[indices]` and the list comprehension are maps; out-of-range
indexing is embedded with a default that the theorem shows unused. -/

def simLe (results : List ℚ) (i j : ℕ) : Bool :=
  decide (results.getD i 0 ≤ results.getD j 0)

def argsort (results : List ℚ) : List ℕ :=
  (List.range results.length).mergeSort (simLe results)

def pyTailSlice {α : Type} (l : List α) (k : ℕ) : List α :=
  if k = 0 then l else l.drop (l.length - k)

def top_indices (results : List ℚ) (k : ℕ) : List ℕ :=
  (pyTailSlice (argsort results) k).reverse

def sem_scores (results : List ℚ) (k : ℕ) : List ℚ :=
  (top_indices results k).map (fun i => results.getD i 0)

def sem_sentences (input_text : List String) (results : List ℚ) (k : ℕ) :
    List String :=
  (top_indices results k).map (fun i => input_text.getD i "")

theorem simLe_trans (results : List ℚ) (a b c : ℕ) (h1 : simLe results a b)
    (h2 : simLe results b c) : simLe results a c := by
  simp only [simLe, decide_eq_true_eq] at *
  exact le_trans h1 h2

theorem simLe_total (results : List ℚ) (a b : ℕ) :
    simLe results a b || simLe results b a := by
  simp only [simLe, Bool.or_eq_true, decide_eq_true_eq]
  exact le_total (results.getD a 0) (results.getD b 0)

theorem argsort_perm (results : List ℚ) :
    (argsort results).Perm (List.range results.length) :=
  List.mergeSort_perm (List.range results.length) (simLe results)

theorem argsort_sorted (results : List ℚ) :
    (argsort results).Pairwise (fun i j => results.getD i 0 ≤ results.getD j 0) := by
  have h := List.sorted_mergeSort (simLe_trans results) (simLe_total results)
    (List.range results.length)
  exact h.imp (fun hab => by simpa [simLe] using hab)

theorem argsort_length (results : List ℚ) :
    (argsort results).length = results.length := by
  unfold argsort
  rw [List.length_mergeSort, List.length_range]

theorem mem_top_indices_mem_argsort (results : List ℚ) (k : ℕ) (i : ℕ)
    (hi : i ∈ top_indices results k) : i ∈ argsort results := by
  unfold top_indices pyTailSlice at hi
  rw [List.mem_reverse] at hi
  by_cases hk : k = 0
  · rw [if_pos hk] at hi
    exact hi
  · rw [if_neg hk] at hi
    exact List.mem_of_mem_drop hi

theorem mem_top_indices_lt (results : List ℚ) (k : ℕ) (i : ℕ)
    (hi : i ∈ top_indices results k) : i < results.length := by
  have h := (argsort_perm results).mem_iff.mp (mem_top_indices_mem_argsort results k i hi)
  exact List.mem_range.mp h

/-- C4: under the precondition that the similarity array has one entry
per sentence, the printed search results are the `num_results`
sentences of `input_text` with the largest cosine similarity to the
search term, in non-increasing similarity order, each paired with its
own similarity score: the displayed lists have length
`min num_results (number of sentences)`, the scores are sorted
non-increasingly, position `j` shows sentence and score of the same
source index, the selected indices are distinct, every unselected
sentence scores no higher than any selected one, and when `input_text`
has at most `num_results` sentences every sentence is selected. -/
theorem semantic_search_spec (input_text : List String) (results : List ℚ)
    (k : ℕ) (hlen : results.length = input_text.length) (hk : 0 < k) :
    (sem_sentences input_text results k).length = min k input_text.length ∧
    (sem_scores results k).length = min k input_text.length ∧
    (sem_scores results k).Pairwise (fun a b => b ≤ a) ∧
    (∀ j (hjt : j < (top_indices results k).length)
        (hjs : j < (sem_sentences input_text results k).length)
        (hjc : j < (sem_scores results k).length),
        ∃ hi : (top_indices results k).get ⟨j, hjt⟩ < input_text.length,
          (sem_sentences input_text results k).get ⟨j, hjs⟩
              = input_text.get ⟨(top_indices results k).get ⟨j, hjt⟩, hi⟩ ∧
          (sem_scores results k).get ⟨j, hjc⟩
              = results.get ⟨(top_indices results k).get ⟨j, hjt⟩,
                  by rw [hlen]; exact hi⟩) ∧
    (top_indices results k).Nodup ∧
    (∀ i ∈ top_indices results k, ∀ i', i' < results.length →
        i' ∉ top_indices results k →
        results.getD i' 0 ≤ results.getD i 0) ∧
    (input_text.length ≤ k →
        (top_indices results k).Perm (List.range input_text.length)) := by
  have hlen_top : (top_indices results k).length = min k input_text.length := by
    unfold top_indices pyTailSlice
    rw [if_neg (Nat.pos_iff_ne_zero.mp hk)]
    rw [List.length_reverse, List.length_drop, argsort_length, hlen]
    omega
  have hsplit : argsort results
      = (argsort results).take ((argsort results).length - k)
          ++ (argsort results).drop ((argsort results).length - k) :=
    (List.take_append_drop _ _).symm
  have htop_eq : top_indices results k
      = ((argsort results).drop ((argsort results).length - k)).reverse := by
    unfold top_indices pyTailSlice
    rw [if_neg (Nat.pos_iff_ne_zero.mp hk)]
  refine ⟨?_, ?_, ?_, ?_, ?_, ?_, ?_⟩
  · unfold sem_sentences
    rw [List.length_map, hlen_top]
  · unfold sem_scores
    rw [List.length_map, hlen_top]
  · unfold sem_scores
    rw [List.pairwise_map, htop_eq, List.pairwise_reverse]
    exact (argsort_sorted results).sublist (List.drop_sublist _ _)
  · intro j hjt hjs hjc
    have hmem : (top_indices results k).get ⟨j, hjt⟩ ∈ top_indices results k :=
      List.get_mem _ _ _
    have hilt := mem_top_indices_lt results k _ hmem
    have hi : (top_indices results k).get ⟨j, hjt⟩ < input_text.length := by
      rw [← hlen]
      exact hilt
    refine ⟨hi, ?_, ?_⟩
    · unfold sem_sentences
      simp only [List.get_eq_getElem, List.getElem_map]
      rw [List.getD_eq_getElem input_text "" (by simpa using hi)]
    · unfold sem_scores
      simp only [List.get_eq_getElem, List.getElem_map]
      rw [List.getD_eq_getElem results 0 (by simpa using hilt)]
  · rw [htop_eq, List.nodup_reverse]
    have hnd : (argsort results).Nodup :=
      ((argsort_perm results).nodup_iff).mpr (List.nodup_range _)
    exact hnd.sublist (List.drop_sublist _ _)
  · intro i hi i2 hi2 hni2
    have hi2arg : i2 ∈ argsort results :=
      (argsort_perm results).mem_iff.mpr (List.mem_range.mpr hi2)
    have hi2take : i2 ∈ (argsort results).take ((argsort results).length - k) := by
      rw [hsplit, List.mem_append] at hi2arg
      rcases hi2arg with h | h
      · exact h
      · exfalso
        apply hni2
        rw [htop_eq, List.mem_reverse]
        exact h
    have hidrop : i ∈ (argsort results).drop ((argsort results).length - k) := by
      have := hi
      rw [htop_eq, List.mem_reverse] at this
      exact this
    have hpair := argsort_sorted results
    rw [hsplit] at hpair
    exact (List.pairwise_append.mp hpair).2.2 i2 hi2take i hidrop
  · intro hfull
    rw [htop_eq]
    have hdrop0 : (argsort results).length - k = 0 := by
      rw [argsort_length, hlen]
      omega
    rw [hdrop0, List.drop_zero]
    refine (List.reverse_perm _).trans ?_
    rw [← hlen]
    exact argsort_perm results

/-- Witness for C4 at a concrete input: three sentences, three
similarity scores, top two requested. -/
theorem semantic_search_spec_witness :
    (sem_sentences ["s0", "s1", "s2"] [1/2, 3/4, 1/4] 2).length
        = min 2 (["s0", "s1", "s2"] : List String).length ∧
    (sem_scores [1/2, 3/4, 1/4] 2).length
        = min 2 (["s0", "s1", "s2"] : List String).length ∧
    (sem_scores [1/2, 3/4, 1/4] 2).Pairwise (fun a b => b ≤ a) ∧
    (∀ j (hjt : j < (top_indices [1/2, 3/4, 1/4] 2).length)
        (hjs : j < (sem_sentences ["s0", "s1", "s2"] [1/2, 3/4, 1/4] 2).length)
        (hjc : j < (sem_scores [1/2, 3/4, 1/4] 2).length),
        ∃ hi : (top_indices [1/2, 3/4, 1/4] 2).get ⟨j, hjt⟩
            < (["s0", "s1", "s2"] : List String).length,
          (sem_sentences ["s0", "s1", "s2"] [1/2, 3/4, 1/4] 2).get ⟨j, hjs⟩
              = (["s0", "s1", "s2"] : List String).get
                  ⟨(top_indices [1/2, 3/4, 1/4] 2).get ⟨j, hjt⟩, hi⟩ ∧
          (sem_scores [1/2, 3/4, 1/4] 2).get ⟨j, hjc⟩
              = ([1/2, 3/4, 1/4] : List ℚ).get
                  ⟨(top_indices [1/2, 3/4, 1/4] 2).get ⟨j, hjt⟩, by
                    rw [(rfl : ([1/2, 3/4, 1/4] : List ℚ).length
                        = (["s0", "s1", "s2"] : List String).length)]
                    exact hi⟩) ∧
    (top_indices [1/2, 3/4, 1/4] 2).Nodup ∧
    (∀ i ∈ top_indices [1/2, 3/4, 1/4] 2, ∀ i2,
        i2 < ([1/2, 3/4, 1/4] : List ℚ).length →
        i2 ∉ top_indices [1/2, 3/4, 1/4] 2 →
        ([1/2, 3/4, 1/4] : List ℚ).getD i2 0 ≤ ([1/2, 3/4, 1/4] : List ℚ).getD i 0) ∧
    ((["s0", "s1", "s2"] : List String).length ≤ 2 →
        (top_indices [1/2, 3/4, 1/4] 2).Perm
          (List.range (["s0", "s1", "s2"] : List String).length)) :=
  semantic_search_spec ["s0", "s1", "s2"] [1/2, 3/4, 1/4] 2 rfl (by decide)

/-! ## BM25 notebook: preprocessing the abstracts

Python source:
```
stop_words = list(stopwords.words('english'))
tokenized_docs = []
for doc in feed.entries:
    # Article abstracts are stored in entries[i].summary
    doc = str(doc.summary).lower()
    doc = re.sub(r"([\w].)([...special chars...])([\s\w].)", "\\1 \\2 \\3", doc)
    doc = re.sub(r"\s+", " ", doc)
    doc = [token for token in word_tokenize(doc.lower())
           if token not in stop_words and token.isalpha()]
    tokenized_docs.append(doc)
```
Strings are `List Char` here, so that case and alphabeticity can be
reasoned about per character; `str.lower()` is `pyLower`,
`str.isalpha()` is `pyIsAlpha` (non-empty and all characters
alphabetic).  The two `re.sub` passes, NLTK's `word_tokenize` and the
NLTK stop-word list are external and appear as parameters; the only
assumption used about the tokenizer is that it introduces no upper-case
character that was not in its input (NLTK only introduces punctuation
such as backquotes). -/

def pyLower (s : List Char) : List Char := s.map Char.toLower

def pyIsAlpha (s : List Char) : Bool := !s.isEmpty && s.all Char.isAlpha

structure FeedEntry where
  title : List Char
  link : List Char
  summary : List Char

def preprocessDoc (subSpecial subSpace : List Char → List Char)
    (word_tokenize : List Char → List (List Char))
    (stop_words : List (List Char)) (summary : List Char) : List (List Char) :=
  let doc1 := pyLower summary
  let doc2 := subSpace (subSpecial doc1)
  (word_tokenize (pyLower doc2)).filter
    (fun token => decide (token ∉ stop_words) && pyIsAlpha token)

def tokenized_docs (subSpecial subSpace : List Char → List Char)
    (word_tokenize : List Char → List (List Char))
    (stop_words : List (List Char)) (entries : List FeedEntry) :
    List (List (List Char)) :=
  entries.map (fun doc =>
    preprocessDoc subSpecial subSpace word_tokenize stop_words doc.summary)

theorem toLower_not_isUpper (c : Char) : (Char.toLower c).isUpper = false := by
  unfold Char.toLower
  by_cases h : c.toNat ≥ 65 ∧ c.toNat ≤ 90
  · rw [if_pos h]
    obtain ⟨h1, h2⟩ := h
    generalize hg : c.toNat = n at h1 h2 ⊢
    interval_cases n <;> decide
  · rw [if_neg h]
    rw [Char.isUpper]
    rw [Bool.and_eq_false_iff]
    by_cases h1 : c.toNat ≥ 65
    · right
      rw [decide_eq_false_iff_not]
      intro hle
      have h2 := UInt32.toNat_le_of_le (by decide) hle
      exact h ⟨h1, h2⟩
    · left
      rw [decide_eq_false_iff_not]
      intro hge
      have h2 := UInt32.le_toNat_of_le (by decide) hge
      exact h1 h2

theorem mem_pyLower_not_isUpper (s : List Char) (c : Char)
    (hc : c ∈ pyLower s) : c.isUpper = false := by
  unfold pyLower at hc
  obtain ⟨d, _, rfl⟩ := List.mem_map.mp hc
  exact toLower_not_isUpper d

/-- C8: the preprocessing loop produces exactly one token list per feed
entry, in entry order — `len(tokenized_docs) == len(feed.entries)` and
`tokenized_docs[i]` is obtained from `feed.entries[i].summary` by the
lower/substitute/tokenize/filter chain — and, provided the tokenizer
introduces no upper-case character of its own, every token in every
list is a non-empty, purely lower-case alphabetic word
(`token.isalpha()` holds) that is not in the NLTK English stop-word
list. -/
theorem tokenized_docs_spec (subSpecial subSpace : List Char → List Char)
    (word_tokenize : List Char → List (List Char))
    (stop_words : List (List Char)) (entries : List FeedEntry)
    (htok : ∀ (s : List Char) (t : List Char), t ∈ word_tokenize s →
        ∀ c ∈ t, c.isUpper = true → c ∈ s) :
    (tokenized_docs subSpecial subSpace word_tokenize stop_words entries).length
        = entries.length ∧
    (∀ i (hi1 : i < (tokenized_docs subSpecial subSpace word_tokenize
            stop_words entries).length)
        (hi2 : i < entries.length),
        (tokenized_docs subSpecial subSpace word_tokenize stop_words
            entries).get ⟨i, hi1⟩
          = preprocessDoc subSpecial subSpace word_tokenize stop_words
              ((entries.get ⟨i, hi2⟩).summary)) ∧
    (∀ doc ∈ tokenized_docs subSpecial subSpace word_tokenize stop_words entries,
        ∀ token ∈ doc,
          pyIsAlpha token = true ∧ token ∉ stop_words ∧
            ∀ c ∈ token, c.isLower = true) := by
  refine ⟨?_, ?_, ?_⟩
  · unfold tokenized_docs
    rw [List.length_map]
  · intro i hi1 hi2
    unfold tokenized_docs
    simp only [List.get_eq_getElem, List.getElem_map]
  · intro doc hdoc token htoken
    unfold tokenized_docs at hdoc
    obtain ⟨entry, _, rfl⟩ := List.mem_map.mp hdoc
    unfold preprocessDoc at htoken
    obtain ⟨hmem, hpred⟩ := List.mem_filter.mp htoken
    rw [Bool.and_eq_true, decide_eq_true_eq] at hpred
    obtain ⟨hnstop, halpha⟩ := hpred
    refine ⟨halpha, hnstop, ?_⟩
    intro c hc
    have hcalpha : c.isAlpha = true := by
      unfold pyIsAlpha at halpha
      rw [Bool.and_eq_true] at halpha
      exact List.all_eq_true.mp halpha.2 c hc
    by_cases hup : c.isUpper = true
    · exfalso
      have hcin := htok _ token hmem c hc hup
      have hfalse := mem_pyLower_not_isUpper _ c hcin
      rw [hup] at hfalse
      exact Bool.true_eq_false.mp hfalse
    · have hor : (c.isUpper || c.isLower) = true := hcalpha
      rw [Bool.or_eq_true] at hor
      rcases hor with h | h
      · exact absurd h hup
      · exact h

def demoTokenize (s : List Char) : List (List Char) := [s]

def demoStop : List (List Char) := [['t', 'h', 'e']]

def demoEntriesBM : List FeedEntry := [⟨['t'], ['l'], ['C', 'a', 't']⟩]

/-- Witness for C8 at a concrete input: a one-token tokenizer (which
introduces no characters at all), one stop word and one entry. -/
theorem tokenized_docs_spec_witness :
    (tokenized_docs id id demoTokenize demoStop demoEntriesBM).length
        = demoEntriesBM.length ∧
    (∀ i (hi1 : i < (tokenized_docs id id demoTokenize demoStop
            demoEntriesBM).length)
        (hi2 : i < demoEntriesBM.length),
        (tokenized_docs id id demoTokenize demoStop demoEntriesBM).get ⟨i, hi1⟩
          = preprocessDoc id id demoTokenize demoStop
              ((demoEntriesBM.get ⟨i, hi2⟩).summary)) ∧
    (∀ doc ∈ tokenized_docs id id demoTokenize demoStop demoEntriesBM,
        ∀ token ∈ doc,
          pyIsAlpha token = true ∧ token ∉ demoStop ∧
            ∀ c ∈ token, c.isLower = true) :=
  tokenized_docs_spec id id demoTokenize demoStop demoEntriesBM
    (by
      intro s t ht c hc hup
      simp only [demoTokenize, List.mem_singleton] at ht
      subst ht
      exact hc)

end Notebooks
